import Mathlib

/-!
Shallow embedding of the DeFiAnalysis extraction pipelines
(`extract_load/fetch_market_data.py` and `extract_load/fetch_onchain_data.py`)
together with theorems checking the specification claims.
-/

namespace DeFi

/-! ## Market data fetcher (`fetch_market_data.py`, `fetch_market_data`) -/

/-- Raw JSON payload of the market-chart endpoint: the two optional arrays
`prices` and `total_volumes`, each a list of (epoch-millisecond, value) pairs.
A `none` field models an absent JSON key (`raw_data.get(key, [])`). -/
structure RawData where
  prices : Option (List (Int × ℚ))
  total_volumes : Option (List (Int × ℚ))
deriving DecidableEq

/-- Outcome of one HTTP GET attempt, as seen by the `try` block:
a JSON payload, an `HTTPError` with a status code raised by
`raise_for_status`, or any other `RequestException`. -/
inductive HttpResp where
  | success (payload : RawData)
  | httpError (status : Nat)
  | requestError
deriving DecidableEq

/-- Observable side effects of the retry loop: an HTTP GET for a given
attempt number, or a `time.sleep(seconds)`. -/
inductive FetchEvent where
  | httpGet (attempt : Int)
  | sleep (seconds : Nat)
deriving DecidableEq

/-- Result of `fetch_market_data`: a returned payload, a re-raised
`HTTPError`, a re-raised `RequestException`, or falling off the end of the
`for` loop (Python implicitly returns `None`). -/
inductive FetchOutcome where
  | payload (d : RawData)
  | raisedHttp (status : Nat)
  | raisedRequest
  | retNone
deriving DecidableEq

/-- The URL built by `fetch_market_data`. The f-string in the source contains
no placeholder: the path segment is the literal `CG-2GwBoDyKGFHywJ2gaSdtrNd7`
and the `coin_id` argument is never interpolated. -/
def marketChartUrl (coin_id : String) : String :=
  "https://api.coingecko.com/api/v3/coins/CG-2GwBoDyKGFHywJ2gaSdtrNd7/market_chart"

/-- `[a, a+1, ..., a+n-1]`, the list Python's `range(a, a+n)` iterates over. -/
def rangeFrom (a : Int) : Nat → List Int
  | 0 => []
  | n + 1 => a :: rangeFrom (a + 1) n

/-- Body of the retry loop of `fetch_market_data`, iterating over the
remaining attempt numbers. On success the payload is returned; on a
429 `HTTPError` or on another `RequestException` the code sleeps 5 seconds
and retries while `attempt < max_retries`, re-raising on the last attempt;
a non-429 `HTTPError` is re-raised at once. -/
def fetchLoop (resp : Int → HttpResp) (max_retries : Int) :
    List Int → FetchOutcome × List FetchEvent
  | [] => (.retNone, [])
  | a :: rest =>
    match resp a with
    | .success d => (.payload d, [.httpGet a])
    | .httpError status =>
        if status = 429 then
          if a < max_retries then
            let r := fetchLoop resp max_retries rest
            (r.1, .httpGet a :: .sleep 5 :: r.2)
          else (.raisedHttp 429, [.httpGet a])
        else (.raisedHttp status, [.httpGet a])
    | .requestError =>
        if a < max_retries then
          let r := fetchLoop resp max_retries rest
          (r.1, .httpGet a :: .sleep 5 :: r.2)
        else (.raisedRequest, [.httpGet a])

/-- `fetch_market_data`: run the retry loop over
`range(1, max_retries + 1)`.  `resp` gives the outcome of the GET issued on
each attempt number. -/
def fetch_market_data (resp : Int → HttpResp) (max_retries : Int) :
    FetchOutcome × List FetchEvent :=
  fetchLoop resp max_retries (rangeFrom 1 max_retries.toNat)

/-- Is the event an HTTP GET? -/
def isHttpGet : FetchEvent → Bool
  | .httpGet _ => true
  | _ => false

/-- Is the event a sleep? -/
def isSleep : FetchEvent → Bool
  | .sleep _ => true
  | _ => false

/-- Number of HTTP requests recorded in a trace. -/
def countGets (tr : List FetchEvent) : Nat := (tr.filter isHttpGet).length

/-- Number of sleeps recorded in a trace. -/
def countSleeps (tr : List FetchEvent) : Nat := (tr.filter isSleep).length

/-! ## Calendar arithmetic shared by both pipelines -/

/-- Proleptic-Gregorian (year, month, day) of a day count since the Unix
epoch (the civil-from-days algorithm used by `datetime`/`pandas`). -/
def civilFromDays (z0 : Int) : Int × Int × Int :=
  let z := z0 + 719468
  let era := Int.fdiv z 146097
  let doe := z - era * 146097
  let yoe := Int.fdiv (doe - Int.fdiv doe 1460 + Int.fdiv doe 36524 - Int.fdiv doe 146096) 365
  let y := yoe + era * 400
  let doy := doe - (365 * yoe + Int.fdiv yoe 4 - Int.fdiv yoe 100)
  let mp := Int.fdiv (5 * doy + 2) 153
  let d := doy - Int.fdiv (153 * mp + 2) 5 + 1
  let m := mp + (if mp < 10 then 3 else -9)
  (y + (if m ≤ 2 then 1 else 0), m, d)

/-- Calendar date (UTC) of an epoch-millisecond timestamp:
`pd.to_datetime(ts, unit="ms").date` flooring at day boundaries. -/
def dateFromMs (ms : Int) : Int × Int × Int :=
  civilFromDays (Int.fdiv ms 86400000)

/-! ## Market data transformer (`fetch_market_data.py`, `process_market_data`) -/

/-- One output row of the transformer: calendar date, price, volume. -/
structure MarketRow where
  date : Int × Int × Int
  price : ℚ
  volume : ℚ
deriving DecidableEq

/-- `pd.merge(df_prices, df_volumes, on="timestamp")`: the inner join on the
timestamp key, keeping the order of the left (prices) frame and, for each
left row, the order of its matches in the right (volumes) frame. -/
def mergeOnTimestamp (prices volumes : List (Int × ℚ)) :
    List (Int × ℚ × ℚ) :=
  prices.flatMap fun p =>
    (volumes.filter fun v => v.1 = p.1).map fun v => (p.1, p.2, v.2)

/-- `df.drop_duplicates(subset=["date"], keep="last")`: keep a row only if
no later row carries the same date, preserving the order of kept rows. -/
def dropDupKeepLast : List MarketRow → List MarketRow
  | [] => []
  | r :: rs =>
    if rs.any fun x => x.date = r.date then dropDupKeepLast rs
    else r :: dropDupKeepLast rs

/-- The merged rows of `process_market_data` before deduplication:
join on timestamp, then convert each timestamp to a UTC calendar date. -/
def mergedRows (prices volumes : List (Int × ℚ)) : List MarketRow :=
  (mergeOnTimestamp prices volumes).map fun r =>
    { date := dateFromMs r.1, price := r.2.1, volume := r.2.2 }

/-- `process_market_data`: extract the two series with `get(key, [])`,
raise `ValueError` if either is empty, else join on timestamp, convert
timestamps to dates, keep date/price/volume, and drop duplicate dates
keeping the last occurrence. -/
def process_market_data (raw : RawData) : Except String (List MarketRow) :=
  let prices := raw.prices.getD []
  let volumes := raw.total_volumes.getD []
  if prices.isEmpty ∨ volumes.isEmpty then
    .error "API response is missing prices or total_volumes data."
  else
    .ok (dropDupKeepLast (mergedRows prices volumes))

/-! ## On-chain extractor (`fetch_onchain_data.py`) -/

/-- Fields of a block as returned by `w3.eth.get_block` (without full
transaction bodies): number, Unix timestamp in seconds, the transaction
hash list, and the optional EIP-1559 `baseFeePerGas` field in wei. -/
structure Block where
  number : Int
  timestamp : Nat
  transactions : List Nat
  baseFeePerGas : Option Nat
deriving DecidableEq

/-- Zero-pad a numeral to two digits. -/
def pad2 (n : Nat) : String :=
  if n < 10 then "0" ++ toString n else toString n

/-- Zero-pad a numeral to four digits. -/
def pad4 (n : Nat) : String :=
  if n < 10 then "000" ++ toString n
  else if n < 100 then "00" ++ toString n
  else if n < 1000 then "0" ++ toString n
  else toString n

/-- `datetime.fromtimestamp(ts, tz=timezone.utc).strftime(fmt)` with
format `%Y-%m-%d %H:%M:%S`: render the whole-second UTC instant. -/
def utcDateTimeString (ts : Nat) : String :=
  let days : Int := (ts : Int) / 86400
  let secs : Nat := ts % 86400
  let ymd := civilFromDays days
  pad4 ymd.1.toNat ++ "-" ++ pad2 ymd.2.1.toNat ++ "-" ++ pad2 ymd.2.2.toNat ++
    " " ++ pad2 (secs / 3600) ++ ":" ++ pad2 (secs % 3600 / 60) ++ ":" ++
    pad2 (secs % 60)

/-- One output record of the block extractor. -/
structure BlockRecord where
  block_number : Int
  timestamp : String
  transaction_count : Nat
  base_fee_per_gas_gwei : ℚ
deriving DecidableEq

/-- The record dict built for one fetched block: its number, formatted UTC
timestamp, transaction count, and base fee converted from wei to gwei
(`w3.from_wei(x, "gwei")`, i.e. division by 10⁹) or `0.0` when the block
lacks a `baseFeePerGas` field. -/
def mkBlockRecord (b : Block) : BlockRecord :=
  { block_number := b.number
    timestamp := utcDateTimeString b.timestamp
    transaction_count := b.transactions.length
    base_fee_per_gas_gwei :=
      match b.baseFeePerGas with
      | some w => (w : ℚ) / 1000000000
      | none => 0 }

/-- `start_block = latest - num_blocks + 1`, clamped to `0` if negative. -/
def startBlock (latest num_blocks : Int) : Int :=
  let s := latest - num_blocks + 1
  if s < 0 then 0 else s

/-- The list Python's `range(hi, lo - 1, -1)` iterates over:
`[hi, hi-1, ..., lo]`, empty when `hi < lo`. -/
def descRange (hi lo : Int) : List Int :=
  (List.range (hi - lo + 1).toNat).map fun i : Nat => hi - (i : Int)

/-- The block numbers `extract_block_data` attempts, head first. -/
def attemptedBlocks (latest num_blocks : Int) : List Int :=
  descRange latest (startBlock latest num_blocks)

/-- `extract_block_data`: walk the attempted block numbers from the head
downward, appending a record for each block whose fetch succeeds and
skipping (`continue`) any block whose fetch raises, modelled by
`getBlock n = none`. -/
def extract_block_data (getBlock : Int → Option Block)
    (latest num_blocks : Int) : List BlockRecord :=
  (attemptedBlocks latest num_blocks).foldl
    (fun data block_num =>
      match getBlock block_num with
      | some b => data ++ [mkBlockRecord b]
      | none => data) []

/-! ## Writers (`save_to_csv`, one per pipeline) -/

/-- Result of a writer call: a file written with a header line and the
given rows, or a warning with no file written. -/
inductive SaveResult (α : Type) where
  | wrote (header : List String) (rows : List α)
  | warnedNoData
deriving DecidableEq

/-- `save_to_csv` of `fetch_market_data.py`: calls `df.to_csv`
unconditionally — there is no empty-input check, so an empty frame still
produces a file holding only the header line. -/
def save_to_csv_market (df : List MarketRow) : SaveResult MarketRow :=
  .wrote ["date", "price", "volume"] df

/-- `save_to_csv` of `fetch_onchain_data.py`: `if not data:` log a warning
and return without writing; otherwise write header and rows. -/
def save_to_csv_onchain (data : List BlockRecord) : SaveResult BlockRecord :=
  if data.isEmpty then .warnedNoData
  else
    .wrote ["block_number", "timestamp", "transaction_count", "base_fee_per_gas_gwei"]
      data

/-- An attempt outcome the retry loop absorbs (sleeps and retries) when
more attempts remain: a 429 `HTTPError` or a non-HTTP `RequestException`. -/
def retryable (h : HttpResp) : Prop :=
  h = .httpError 429 ∨ h = .requestError

/-- The price entries whose timestamp also occurs in the volume series:
exactly the left rows an inner join on `timestamp` keeps. -/
def matchingPrices (prices volumes : List (Int × ℚ)) : List (Int × ℚ) :=
  prices.filter fun p => volumes.any fun v => v.1 = p.1

/-! ## Theorems -/

/-- C1: the claim says the fetcher requests the market-chart resource *of
the given coin identifier*, the request target being a function of
`coin_id`. The code instead hardcodes the path segment
`CG-2GwBoDyKGFHywJ2gaSdtrNd7` (an API-key-shaped literal) in an f-string
with no placeholder, so two distinct coin identifiers produce the same
request target. -/
theorem C1_url_ignores_coin_id :
    marketChartUrl "ethereum" = marketChartUrl "bitcoin" ∧
    marketChartUrl "ethereum" =
      "https://api.coingecko.com/api/v3/coins/CG-2GwBoDyKGFHywJ2gaSdtrNd7/market_chart" :=
  ⟨rfl, rfl⟩

/-- C2 counterexample: the claim says *every* Writer instantiation writes
nothing on empty input, producing no header-only file. The market writer
has no empty-input check: on an empty frame it still writes, producing a
header-only file. -/
theorem C2_counterexample_market_writer_writes_empty :
    save_to_csv_market [] ≠ .warnedNoData ∧
    save_to_csv_market [] = .wrote ["date", "price", "volume"] [] := by
  exact ⟨by decide, rfl⟩

/-- C2 (amended): the on-chain Writer given an empty record sequence
writes no output file and reports a warning instead of raising; the
market Writer writes unconditionally, so an empty input yields a
header-only file. -/
theorem C2_writer_empty_input :
    save_to_csv_onchain [] = .warnedNoData ∧
    save_to_csv_market [] = .wrote ["date", "price", "volume"] [] ∧
    ∀ data : List BlockRecord, data ≠ [] →
      save_to_csv_onchain data =
        .wrote ["block_number", "timestamp", "transaction_count", "base_fee_per_gas_gwei"]
          data := by
  refine ⟨rfl, rfl, fun data hd => ?_⟩
  unfold save_to_csv_onchain
  simp [hd]

/-- Witness for C2 (amended) at a one-record input: the on-chain writer
writes the file when the input is non-empty. -/
theorem C2_witness :
    save_to_csv_onchain [⟨0, "1970-01-01 00:00:00", 0, 0⟩] =
      .wrote ["block_number", "timestamp", "transaction_count", "base_fee_per_gas_gwei"]
        [⟨0, "1970-01-01 00:00:00", 0, 0⟩] :=
  C2_writer_empty_input.2.2 [⟨0, "1970-01-01 00:00:00", 0, 0⟩] (by decide)

/-- C8: if the `prices` series or the `total_volumes` series is empty (or
its key absent, making `get(key, [])` empty), the transformer raises a
`ValueError` and produces no output. -/
theorem C8_empty_series_validation_error (raw : RawData)
    (h : raw.prices.getD [] = [] ∨ raw.total_volumes.getD [] = []) :
    process_market_data raw =
      .error "API response is missing prices or total_volumes data." := by
  unfold process_market_data
  rcases h with h | h <;> simp [h]

/-- Witness for C8 at a concrete payload with an empty `prices` array. -/
theorem C8_witness :
    process_market_data ⟨some [], some [(0, 1)]⟩ =
      .error "API response is missing prices or total_volumes data." :=
  C8_empty_series_validation_error ⟨some [], some [(0, 1)]⟩ (Or.inl rfl)

/-- C10: when `max_retries ≤ 0` the loop `for attempt in
range(1, max_retries + 1)` has an empty range, so `fetch_market_data`
issues no HTTP request at all and falls off the loop, implicitly
returning `None` instead of a payload or an exception. -/
theorem C10_nonpositive_retries_returns_none (resp : Int → HttpResp)
    (m : Int) (hm : m ≤ 0) :
    fetch_market_data resp m = (.retNone, []) := by
  unfold fetch_market_data
  rw [Int.toNat_of_nonpos hm]
  rfl

/-- Witness for C10 at `max_retries = 0` against an all-429 endpoint. -/
theorem C10_witness :
    fetch_market_data (fun _ => .httpError 429) 0 = (.retNone, []) :=
  C10_nonpositive_retries_returns_none (fun _ => .httpError 429) 0 (by decide)

/-- The append-on-success loop of `extract_block_data` is a `filterMap`
over the attempted block numbers. -/
theorem extract_block_data_eq_filterMap (getBlock : Int → Option Block)
    (latest num_blocks : Int) :
    extract_block_data getBlock latest num_blocks =
      (attemptedBlocks latest num_blocks).filterMap
        fun n => (getBlock n).map mkBlockRecord := by
  unfold extract_block_data
  generalize attemptedBlocks latest num_blocks = l
  suffices h : ∀ acc : List BlockRecord,
      l.foldl (fun data block_num =>
        match getBlock block_num with
        | some b => data ++ [mkBlockRecord b]
        | none => data) acc =
      acc ++ l.filterMap (fun n => (getBlock n).map mkBlockRecord) by
    simpa using h []
  induction l with
  | nil => intro acc; simp
  | cons x xs ih =>
    intro acc
    cases hx : getBlock x <;>
      simp [List.filterMap_cons, hx, ih, List.append_assoc]

/-- Cons step of the per-block `filterMap` when the fetch fails. -/
theorem filterMapBlock_cons_none (h : Int → Option Block) (x : Int)
    (xs : List Int) (hx : h x = none) :
    (x :: xs).filterMap (fun n => (h n).map mkBlockRecord) =
      xs.filterMap (fun n => (h n).map mkBlockRecord) :=
  List.filterMap_cons_none (show (h x).map mkBlockRecord = none by rw [hx]; rfl)

/-- Cons step of the per-block `filterMap` when the fetch succeeds. -/
theorem filterMapBlock_cons_some (h : Int → Option Block) (x : Int)
    (xs : List Int) (b : Block) (hx : h x = some b) :
    (x :: xs).filterMap (fun n => (h n).map mkBlockRecord) =
      mkBlockRecord b :: xs.filterMap (fun n => (h n).map mkBlockRecord) :=
  List.filterMap_cons_some
    (show (h x).map mkBlockRecord = some (mkBlockRecord b) by rw [hx]; rfl)

/-- Membership in the attempted window: `b = latest - i` for some
`i < (latest - start + 1).toNat`. -/
theorem mem_attemptedBlocks {latest num_blocks b : Int}
    (hb : b ∈ attemptedBlocks latest num_blocks) :
    startBlock latest num_blocks ≤ b ∧ b ≤ latest := by
  unfold attemptedBlocks descRange at hb
  obtain ⟨i, hi, rfl⟩ := List.mem_map.mp hb
  rw [List.mem_range] at hi
  omega

/-- C5: with chain head `latest ≥ 0` and window `num_blocks ≥ 1`, the
extractor attempts exactly the numbers from the head down to
`max(latest - num_blocks + 1, 0)`, head first, strictly descending,
never negative; it attempts `min num_blocks (latest + 1)` blocks, so it
returns at most that many records, and (when the node returns blocks
carrying their requested number) the records are ordered by strictly
decreasing `block_number`. -/
theorem C5_extraction_window (getBlock : Int → Option Block)
    (latest num_blocks : Int) (hl : 0 ≤ latest) (hn : 1 ≤ num_blocks) :
    attemptedBlocks latest num_blocks =
      descRange latest (max (latest - num_blocks + 1) 0) ∧
    (attemptedBlocks latest num_blocks).head? = some latest ∧
    (attemptedBlocks latest num_blocks).Pairwise (· > ·) ∧
    (∀ b ∈ attemptedBlocks latest num_blocks, 0 ≤ b ∧ b ≤ latest) ∧
    (attemptedBlocks latest num_blocks).length =
      (min num_blocks (latest + 1)).toNat ∧
    (extract_block_data getBlock latest num_blocks).length ≤
      (min num_blocks (latest + 1)).toNat ∧
    ((∀ n b, getBlock n = some b → b.number = n) →
      (extract_block_data getBlock latest num_blocks).Pairwise
        fun r s => s.block_number < r.block_number) := by
  have hstart : startBlock latest num_blocks = max (latest - num_blocks + 1) 0 := by
    unfold startBlock
    dsimp only
    split <;> omega
  have hlen : (attemptedBlocks latest num_blocks).length =
      (min num_blocks (latest + 1)).toNat := by
    unfold attemptedBlocks descRange
    rw [List.length_map, List.length_range, hstart]
    omega
  have hpair : (attemptedBlocks latest num_blocks).Pairwise (· > ·) := by
    unfold attemptedBlocks descRange
    refine List.Pairwise.map _ (fun a b hab => ?_) (List.pairwise_lt_range _)
    omega
  refine ⟨by rw [attemptedBlocks, hstart], ?_, hpair, ?_, hlen, ?_, ?_⟩
  · unfold attemptedBlocks descRange
    have h1 : (latest - startBlock latest num_blocks + 1).toNat =
        (latest - startBlock latest num_blocks).toNat + 1 := by
      rw [hstart]; omega
    rw [h1, List.range_succ_eq_map]
    simp
  · intro b hb
    have := mem_attemptedBlocks hb
    rw [hstart] at this
    omega
  · rw [extract_block_data_eq_filterMap, ← hlen]
    exact List.length_filterMap_le _ _
  · intro hnum
    rw [extract_block_data_eq_filterMap]
    rw [List.pairwise_filterMap]
    refine hpair.imp_of_mem fun {a b} _ _ hab => ?_
    intro r hr s hs
    cases ha : getBlock a with
    | none => simp [ha] at hr
    | some ba =>
      cases hbb : getBlock b with
      | none => simp [hbb] at hs
      | some bb =>
        simp [ha, hbb] at hr hs
        subst hr; subst hs
        simpa [mkBlockRecord, hnum a ba ha, hnum b bb hbb] using hab

/-- Witness for C5 at a head of 50 and a requested window of 100: the
window claim's edge case, attempting exactly the 51 blocks 50..0. -/
theorem C5_witness :
    (attemptedBlocks 50 100).length = ((min 100 (50 + 1) : Int)).toNat :=
  (C5_extraction_window (fun _ => none) 50 100 (by decide) (by decide)).2.2.2.2.1

/-- C4: when fetching block `b0` fails (`getBlock b0 = none`) and the node
otherwise behaves like the failure-free node `g` (which labels blocks with
their requested number), the run is not aborted: the extractor returns
exactly the failure-free output with `b0`'s record removed — every other
succeeded block's record is present and unchanged, in order, and no record
for `b0` appears. -/
theorem C4_failed_block_skipped (f g : Int → Option Block)
    (latest num_blocks b0 : Int)
    (hfail : f b0 = none)
    (hagree : ∀ n, n ≠ b0 → f n = g n)
    (hnum : ∀ n b, g n = some b → b.number = n) :
    extract_block_data f latest num_blocks =
      (extract_block_data g latest num_blocks).filter
        (fun r => decide (r.block_number ≠ b0)) ∧
    (∀ r ∈ extract_block_data f latest num_blocks, r.block_number ≠ b0) ∧
    (∀ n ∈ attemptedBlocks latest num_blocks, ∀ b, f n = some b →
      mkBlockRecord b ∈ extract_block_data f latest num_blocks) := by
  rw [extract_block_data_eq_filterMap f, extract_block_data_eq_filterMap g]
  refine ⟨?_, ?_, ?_⟩
  · generalize attemptedBlocks latest num_blocks = l
    induction l with
    | nil => simp
    | cons x xs ih =>
      by_cases hx : x = b0
      · subst hx
        rw [filterMapBlock_cons_none f x xs hfail]
        cases hg : g x with
        | none =>
          rw [filterMapBlock_cons_none g x xs hg]
          exact ih
        | some b =>
          rw [filterMapBlock_cons_some g x xs b hg, List.filter_cons]
          have hb : (mkBlockRecord b).block_number = x := hnum x b hg
          rw [if_neg (by simp [hb])]
          exact ih
      · cases hg : g x with
        | none =>
          rw [filterMapBlock_cons_none f x xs (by rw [hagree x hx, hg]),
            filterMapBlock_cons_none g x xs hg]
          exact ih
        | some b =>
          rw [filterMapBlock_cons_some f x xs b (by rw [hagree x hx, hg]),
            filterMapBlock_cons_some g x xs b hg, List.filter_cons]
          have hb : (mkBlockRecord b).block_number = x := hnum x b hg
          rw [if_pos (by simp [hb, hx])]
          rw [ih]
  · intro r hr
    obtain ⟨n, _, hn⟩ := List.mem_filterMap.mp hr
    have hn' : Option.map mkBlockRecord (f n) = some r := hn
    cases hfn : f n with
    | none => rw [hfn] at hn'; cases hn'
    | some b =>
      have hnb0 : n ≠ b0 := fun h => by rw [h, hfail] at hfn; cases hfn
      have hb : b.number = n := hnum n b (by rw [← hagree n hnb0]; exact hfn)
      rw [hfn] at hn'
      have hmk : mkBlockRecord b = r := Option.some.inj hn'
      rw [← hmk]
      show b.number ≠ b0
      rw [hb]
      exact hnb0
  · intro n hn b hb
    refine List.mem_filterMap.mpr ⟨n, hn, ?_⟩
    show Option.map mkBlockRecord (f n) = some (mkBlockRecord b)
    rw [hb]
    rfl

/-- Witness for C4: head 45, window 5, block 42 failing, against a node
returning an empty block for every other height. -/
theorem C4_witness :
    extract_block_data
        (fun n => if n = 42 then none else some ⟨n, 0, [], none⟩) 45 5 =
      (extract_block_data (fun n => some ⟨n, 0, [], none⟩) 45 5).filter
        (fun r => decide (r.block_number ≠ 42)) :=
  (C4_failed_block_skipped
    (fun n => if n = 42 then none else some ⟨n, 0, [], none⟩)
    (fun n => some ⟨n, 0, [], none⟩) 45 5 42 rfl
    (fun n hn => by simp [hn])
    (fun n b h => by cases h; rfl)).1

/-- C9: every record the extractor returns comes from a successfully
fetched block, with `transaction_count` the length of that block's
transaction list, `timestamp` the block's UTC instant rendered to whole
seconds, and `base_fee_per_gas_gwei` the block's base fee divided by 10⁹
when a `baseFeePerGas` field is present and exactly `0` when it is
absent. -/
theorem C9_block_record_fields (getBlock : Int → Option Block)
    (latest num_blocks : Int) (r : BlockRecord)
    (hr : r ∈ extract_block_data getBlock latest num_blocks) :
    ∃ n b, getBlock n = some b ∧
      r.block_number = b.number ∧
      r.transaction_count = b.transactions.length ∧
      r.timestamp = utcDateTimeString b.timestamp ∧
      (∀ w, b.baseFeePerGas = some w →
        r.base_fee_per_gas_gwei = (w : ℚ) / 1000000000) ∧
      (b.baseFeePerGas = none → r.base_fee_per_gas_gwei = 0) := by
  rw [extract_block_data_eq_filterMap] at hr
  obtain ⟨n, _, hn⟩ := List.mem_filterMap.mp hr
  have hn' : Option.map mkBlockRecord (getBlock n) = some r := hn
  cases hfn : getBlock n with
  | none => rw [hfn] at hn'; cases hn'
  | some b =>
    rw [hfn] at hn'
    have hmk : mkBlockRecord b = r := Option.some.inj hn'
    subst hmk
    refine ⟨n, b, hfn, rfl, rfl, rfl, ?_, ?_⟩
    · intro w hw
      simp [mkBlockRecord, hw]
    · intro hw
      simp [mkBlockRecord, hw]

/-- Trace counter: an HTTP GET at the head adds one request. -/
theorem countGets_cons_get (a : Int) (tr : List FetchEvent) :
    countGets (.httpGet a :: tr) = countGets tr + 1 := by
  simp [countGets, isHttpGet, List.filter_cons]

/-- Trace counter: a sleep at the head adds no request. -/
theorem countGets_cons_sleep (s : Nat) (tr : List FetchEvent) :
    countGets (.sleep s :: tr) = countGets tr := by
  simp [countGets, isHttpGet, List.filter_cons]

/-- Trace counter: an HTTP GET at the head adds no sleep. -/
theorem countSleeps_cons_get (a : Int) (tr : List FetchEvent) :
    countSleeps (.httpGet a :: tr) = countSleeps tr := by
  simp [countSleeps, isSleep, List.filter_cons]

/-- Trace counter: a sleep at the head adds one sleep. -/
theorem countSleeps_cons_sleep (s : Nat) (tr : List FetchEvent) :
    countSleeps (.sleep s :: tr) = countSleeps tr + 1 := by
  simp [countSleeps, isSleep, List.filter_cons]

/-- Loop step: a successful GET returns the payload at once. -/
theorem fetchLoop_cons_success (resp : Int → HttpResp) (m a : Int)
    (rest : List Int) (d : RawData) (h : resp a = .success d) :
    fetchLoop resp m (a :: rest) = (.payload d, [.httpGet a]) := by
  simp [fetchLoop, h]

/-- Loop step: a 429 with attempts left sleeps 5 seconds and retries. -/
theorem fetchLoop_cons_429_retry (resp : Int → HttpResp) (m a : Int)
    (rest : List Int) (h : resp a = .httpError 429) (hlt : a < m) :
    fetchLoop resp m (a :: rest) =
      ((fetchLoop resp m rest).1,
        .httpGet a :: .sleep 5 :: (fetchLoop resp m rest).2) := by
  simp [fetchLoop, h, hlt]

/-- Loop step: a 429 on the final attempt re-raises. -/
theorem fetchLoop_cons_429_last (resp : Int → HttpResp) (m a : Int)
    (rest : List Int) (h : resp a = .httpError 429) (hge : ¬a < m) :
    fetchLoop resp m (a :: rest) = (.raisedHttp 429, [.httpGet a]) := by
  simp [fetchLoop, h, hge]

/-- Loop step: a non-429 HTTP error re-raises at once, attempts left or
not. -/
theorem fetchLoop_cons_http_other (resp : Int → HttpResp) (m a : Int)
    (rest : List Int) (s : Nat) (h : resp a = .httpError s) (hs : s ≠ 429) :
    fetchLoop resp m (a :: rest) = (.raisedHttp s, [.httpGet a]) := by
  simp [fetchLoop, h, hs]

/-- Loop step: a non-HTTP request error with attempts left sleeps 5
seconds and retries. -/
theorem fetchLoop_cons_req_retry (resp : Int → HttpResp) (m a : Int)
    (rest : List Int) (h : resp a = .requestError) (hlt : a < m) :
    fetchLoop resp m (a :: rest) =
      ((fetchLoop resp m rest).1,
        .httpGet a :: .sleep 5 :: (fetchLoop resp m rest).2) := by
  simp [fetchLoop, h, hlt]

/-- Loop step: a non-HTTP request error on the final attempt re-raises. -/
theorem fetchLoop_cons_req_last (resp : Int → HttpResp) (m a : Int)
    (rest : List Int) (h : resp a = .requestError) (hge : ¬a < m) :
    fetchLoop resp m (a :: rest) = (.raisedRequest, [.httpGet a]) := by
  simp [fetchLoop, h, hge]

/-- Running the loop over attempts `a..m` when every attempt fails with a
retryable error: the loop visits all remaining attempts, sleeping 5 seconds
between consecutive ones, and finally re-raises the last attempt's error. -/
theorem fetchLoop_all_retryable_fail (resp : Int → HttpResp) (m : Int)
    (hresp : ∀ i, retryable (resp i)) :
    ∀ (n : Nat) (a : Int), 1 ≤ n → a + n = m + 1 →
      ((resp m = .httpError 429 →
        (fetchLoop resp m (rangeFrom a n)).1 = .raisedHttp 429) ∧
       (resp m = .requestError →
        (fetchLoop resp m (rangeFrom a n)).1 = .raisedRequest)) ∧
      countGets (fetchLoop resp m (rangeFrom a n)).2 = n ∧
      countSleeps (fetchLoop resp m (rangeFrom a n)).2 = n - 1 ∧
      (∀ s, FetchEvent.sleep s ∈ (fetchLoop resp m (rangeFrom a n)).2 → s = 5) := by
  intro n
  induction n with
  | zero => intro a h1 h2; omega
  | succ k ih =>
    intro a h1 h2
    rcases Nat.eq_zero_or_pos k with hk | hk
    · subst hk
      have ha : a = m := by omega
      subst ha
      rcases hresp a with h | h
      · rw [show rangeFrom a 1 = [a] from rfl,
          fetchLoop_cons_429_last resp a a [] h (lt_irrefl a)]
        refine ⟨⟨fun _ => rfl, fun hr => ?_⟩, rfl, rfl, fun s hs => ?_⟩
        · rw [h] at hr; cases hr
        · simp at hs
      · rw [show rangeFrom a 1 = [a] from rfl,
          fetchLoop_cons_req_last resp a a [] h (lt_irrefl a)]
        refine ⟨⟨fun hr => ?_, fun _ => rfl⟩, rfl, rfl, fun s hs => ?_⟩
        · rw [h] at hr; cases hr
        · simp at hs
    · have hlt : a < m := by omega
      have step : fetchLoop resp m (rangeFrom a (k + 1)) =
          ((fetchLoop resp m (rangeFrom (a + 1) k)).1,
            .httpGet a :: .sleep 5 ::
              (fetchLoop resp m (rangeFrom (a + 1) k)).2) := by
        rcases hresp a with h | h
        · exact fetchLoop_cons_429_retry resp m a (rangeFrom (a + 1) k) h hlt
        · exact fetchLoop_cons_req_retry resp m a (rangeFrom (a + 1) k) h hlt
      obtain ⟨hfst, hg, hsl, hs5⟩ := ih (a + 1) hk (by omega)
      rw [step]
      refine ⟨⟨fun h429 => hfst.1 h429, fun hreq => hfst.2 hreq⟩, ?_, ?_, ?_⟩
      · rw [countGets_cons_get, countGets_cons_sleep, hg]
      · rw [countSleeps_cons_get, countSleeps_cons_sleep, hsl]
        omega
      · intro s hs
        simp only [List.mem_cons] at hs
        rcases hs with hs | hs | hs
        · cases hs
        · exact (FetchEvent.sleep.inj hs)
        · exact hs5 s hs

/-- Running the loop over attempts `a..m` when attempts before `k` fail
retryably: the loop reaches attempt `k` having made `k - a` earlier
requests with a sleep after each, and stops there if attempt `k` succeeds
or raises a non-429 HTTP error. -/
theorem fetchLoop_stops_at_k (resp : Int → HttpResp) (m : Int) :
    ∀ (n : Nat) (a k : Int), a ≤ k → k < a + n → a + n = m + 1 →
      (∀ i, a ≤ i → i < k → retryable (resp i)) →
      (∀ d, resp k = .success d →
        (fetchLoop resp m (rangeFrom a n)).1 = .payload d ∧
        countGets (fetchLoop resp m (rangeFrom a n)).2 = (k - a + 1).toNat ∧
        countSleeps (fetchLoop resp m (rangeFrom a n)).2 = (k - a).toNat) ∧
      (∀ s, resp k = .httpError s → s ≠ 429 →
        (fetchLoop resp m (rangeFrom a n)).1 = .raisedHttp s ∧
        countGets (fetchLoop resp m (rangeFrom a n)).2 = (k - a + 1).toNat ∧
        countSleeps (fetchLoop resp m (rangeFrom a n)).2 = (k - a).toNat) := by
  intro n
  induction n with
  | zero => intro a k h1 h2 h3 h4; omega
  | succ j ih =>
    intro a k h1 h2 h3 hpre
    by_cases hak : a = k
    · subst hak
      have hca : ((a : Int) - a + 1).toNat = 1 := by omega
      have hcs : ((a : Int) - a).toNat = 0 := by omega
      rw [show rangeFrom a (j + 1) = a :: rangeFrom (a + 1) j from rfl]
      constructor
      · intro d hd
        rw [fetchLoop_cons_success resp m a (rangeFrom (a + 1) j) d hd, hca, hcs]
        exact ⟨rfl, rfl, rfl⟩
      · intro s hs hne
        rw [fetchLoop_cons_http_other resp m a (rangeFrom (a + 1) j) s hs hne,
          hca, hcs]
        exact ⟨rfl, rfl, rfl⟩
    · have halt : a < k := lt_of_le_of_ne h1 hak
      have hlt : a < m := by omega
      have step : fetchLoop resp m (rangeFrom a (j + 1)) =
          ((fetchLoop resp m (rangeFrom (a + 1) j)).1,
            .httpGet a :: .sleep 5 ::
              (fetchLoop resp m (rangeFrom (a + 1) j)).2) := by
        rcases hpre a le_rfl halt with h | h
        · exact fetchLoop_cons_429_retry resp m a (rangeFrom (a + 1) j) h hlt
        · exact fetchLoop_cons_req_retry resp m a (rangeFrom (a + 1) j) h hlt
      have ihk := ih (a + 1) k halt (by omega) (by omega)
        (fun i hi1 hi2 => hpre i (by omega) hi2)
      rw [step]
      constructor
      · intro d hd
        obtain ⟨hf, hg, hsl⟩ := ihk.1 d hd
        refine ⟨hf, ?_, ?_⟩
        · rw [countGets_cons_get, countGets_cons_sleep, hg]
          omega
        · rw [countSleeps_cons_get, countSleeps_cons_sleep, hsl]
          omega
      · intro s hs hne
        obtain ⟨hf, hg, hsl⟩ := ihk.2 s hs hne
        refine ⟨hf, ?_, ?_⟩
        · rw [countGets_cons_get, countGets_cons_sleep, hg]
          omega
        · rw [countSleeps_cons_get, countSleeps_cons_sleep, hsl]
          omega

/-- Deduplication only keeps rows of the input list. -/
theorem mem_of_mem_dropDupKeepLast {r : MarketRow} :
    ∀ {l : List MarketRow}, r ∈ dropDupKeepLast l → r ∈ l := by
  intro l
  induction l with
  | nil => intro h; cases h
  | cons x xs ih =>
    intro h
    rw [dropDupKeepLast] at h
    split at h
    · exact List.mem_cons_of_mem x (ih h)
    · rcases List.mem_cons.mp h with rfl | h
      · exact List.mem_cons_self r xs
      · exact List.mem_cons_of_mem x (ih h)

/-- After deduplication each date appears at most once. -/
theorem dropDupKeepLast_dates_nodup :
    ∀ l : List MarketRow, ((dropDupKeepLast l).map fun r => r.date).Nodup := by
  intro l
  induction l with
  | nil => simp [dropDupKeepLast]
  | cons x xs ih =>
    rw [dropDupKeepLast]
    split
    · exact ih
    · rename_i hany
      simp only [List.map_cons, List.nodup_cons]
      refine ⟨fun hmem => ?_, ih⟩
      obtain ⟨r, hr, hdate⟩ := List.mem_map.mp hmem
      rw [List.any_eq_true] at hany
      exact hany ⟨r, mem_of_mem_dropDupKeepLast hr, by simp [hdate]⟩

/-- A row surviving deduplication is the last input row with its date. -/
theorem dropDupKeepLast_keeps_last {r : MarketRow} :
    ∀ {l : List MarketRow}, r ∈ dropDupKeepLast l →
      (l.filter fun x => decide (x.date = r.date)).getLast? = some r := by
  intro l
  induction l with
  | nil => intro h; cases h
  | cons x xs ih =>
    intro h
    rw [dropDupKeepLast] at h
    by_cases hany : (xs.any fun y => decide (y.date = x.date)) = true
    · rw [if_pos hany] at h
      have hlast := ih h
      rw [List.filter_cons]
      by_cases hxr : x.date = r.date
      · rw [if_pos (by simp [hxr])]
        have hne : (xs.filter fun y => decide (y.date = r.date)) ≠ [] := by
          intro hempty
          rw [hempty] at hlast
          cases hlast
        obtain ⟨y, ys, hys⟩ := List.exists_cons_of_ne_nil hne
        rw [hys] at hlast ⊢
        rw [List.getLast?_cons_cons]
        exact hlast
      · rw [if_neg (by simp [hxr])]
        exact hlast
    · rw [if_neg hany] at h
      rcases List.mem_cons.mp h with rfl | h
      · rw [List.filter_cons, if_pos (by simp)]
        have hempty : (xs.filter fun y => decide (y.date = r.date)) = [] := by
          rw [List.filter_eq_nil_iff]
          intro y hy hdy
          rw [List.any_eq_true] at hany
          exact hany ⟨y, hy, hdy⟩
        rw [hempty]
        exact List.getLast?_singleton r
      · have hlast := ih h
        have hrx : r ∈ xs := mem_of_mem_dropDupKeepLast h
        have hxr : ¬x.date = r.date := by
          intro he
          rw [List.any_eq_true] at hany
          exact hany ⟨r, hrx, by simp [he]⟩
        rw [List.filter_cons, if_neg (by simp [hxr])]
        exact hlast

/-- Every input date is still represented after deduplication. -/
theorem dropDupKeepLast_covers :
    ∀ (l : List MarketRow) (x : MarketRow), x ∈ l →
      ∃ r ∈ dropDupKeepLast l, r.date = x.date := by
  intro l
  induction l with
  | nil => intro x h; cases h
  | cons y ys ih =>
    intro x h
    rw [dropDupKeepLast]
    by_cases hany : (ys.any fun z => decide (z.date = y.date)) = true
    · rw [if_pos hany]
      rcases List.mem_cons.mp h with rfl | h
      · rw [List.any_eq_true] at hany
        obtain ⟨z, hz, hdz⟩ := hany
        obtain ⟨r, hr, hrz⟩ := ih z hz
        exact ⟨r, hr, by rw [hrz]; exact of_decide_eq_true hdz⟩
      · exact ih x h
    · rw [if_neg hany]
      rcases List.mem_cons.mp h with rfl | h
      · exact ⟨x, List.mem_cons_self x _, rfl⟩
      · obtain ⟨r, hr, hrz⟩ := ih x h
        exact ⟨r, List.mem_cons_of_mem y hr, hrz⟩

/-- A successful `process_market_data` run returns the deduplicated merged
rows. -/
theorem process_market_data_ok {raw : RawData} {out : List MarketRow}
    (h : process_market_data raw = .ok out) :
    out = dropDupKeepLast
      (mergedRows (raw.prices.getD []) (raw.total_volumes.getD [])) := by
  simp only [process_market_data] at h
  split at h
  · cases h
  · exact (Except.ok.inj h).symm

/-- C6: whenever the transformer succeeds, its output has at most one
record per calendar date; each output record is the last-indexed merged
price/volume pair carrying its date; and every date occurring among the
merged rows is still represented in the output. -/
theorem C6_dedup_last_wins (raw : RawData) (out : List MarketRow)
    (h : process_market_data raw = .ok out) :
    ((out.map fun r => r.date).Nodup) ∧
    (∀ r ∈ out,
      ((mergedRows (raw.prices.getD []) (raw.total_volumes.getD [])).filter
        fun x => decide (x.date = r.date)).getLast? = some r) ∧
    (∀ x ∈ mergedRows (raw.prices.getD []) (raw.total_volumes.getD []),
      ∃ r ∈ out, r.date = x.date) := by
  have hout := process_market_data_ok h
  subst hout
  exact ⟨dropDupKeepLast_dates_nodup _,
    fun r hr => dropDupKeepLast_keeps_last hr,
    fun x hx => dropDupKeepLast_covers _ x hx⟩

/-- Witness for C6 at a payload carrying two same-day samples: the kept
record is the later-indexed pair (price 6, volume 60). -/
theorem C6_witness :
    ((([⟨(1970, 1, 1), 6, 60⟩] : List MarketRow)).map fun r => r.date).Nodup :=
  (C6_dedup_last_wins ⟨some [(0, 5), (100, 6)], some [(0, 50), (100, 60)]⟩
    [⟨(1970, 1, 1), 6, 60⟩] (by rfl)).1

/-- With duplicate-free volume timestamps, each price row has at most one
join partner. -/
theorem filter_key_length_le_one (volumes : List (Int × ℚ)) (t : Int)
    (hvk : (volumes.map Prod.fst).Nodup) :
    (volumes.filter fun v => decide (v.1 = t)).length ≤ 1 := by
  induction volumes with
  | nil => simp
  | cons v vs ih =>
    simp only [List.map_cons, List.nodup_cons] at hvk
    rw [List.filter_cons]
    by_cases hv : v.1 = t
    · rw [if_pos (by simp [hv])]
      have hempty : (vs.filter fun w => decide (w.1 = t)) = [] := by
        rw [List.filter_eq_nil_iff]
        intro w hw hwt
        exact hvk.1 (List.mem_map.mpr
          ⟨w, hw, (of_decide_eq_true hwt).trans hv.symm⟩)
      rw [hempty]
      simp
    · rw [if_neg (by simp [hv])]
      exact ih hvk.2

/-- With duplicate-free volume timestamps, the dates of the merged rows
are, in order, the dates of the price entries whose timestamp also occurs
in the volume series. -/
theorem mergedRows_dates (prices volumes : List (Int × ℚ))
    (hvk : (volumes.map Prod.fst).Nodup) :
    ((mergedRows prices volumes).map fun r => r.date) =
      (matchingPrices prices volumes).map fun p => dateFromMs p.1 := by
  induction prices with
  | nil => rfl
  | cons p ps ih =>
    simp only [mergedRows, mergeOnTimestamp, List.flatMap_cons, List.map_append,
      matchingPrices, List.filter_cons] at ih ⊢
    cases hF : volumes.filter fun v => decide (v.1 = p.1) with
    | nil =>
      have hany : (volumes.any fun w => decide (w.1 = p.1)) = false := by
        rw [List.any_eq_false]
        intro w hw hwt
        have : w ∈ volumes.filter fun v => decide (v.1 = p.1) :=
          List.mem_filter.mpr ⟨hw, hwt⟩
        rw [hF] at this
        cases this
      rw [hany]
      simpa using ih
    | cons v vs =>
      have hlen := filter_key_length_le_one volumes p.1 hvk
      rw [hF] at hlen
      have hvs : vs = [] := by
        cases vs with
        | nil => rfl
        | cons _ _ => simp at hlen
      subst hvs
      have hany : (volumes.any fun w => decide (w.1 = p.1)) = true := by
        rw [List.any_eq_true]
        have : v ∈ volumes.filter fun w => decide (w.1 = p.1) := by
          rw [hF]; exact List.mem_cons_self v []
        rw [List.mem_filter] at this
        exact ⟨v, this.1, this.2⟩
      rw [hany]
      simpa using ih

/-- When no two rows share a date, deduplication keeps everything. -/
theorem dropDupKeepLast_eq_self {l : List MarketRow}
    (h : (l.map fun r => r.date).Nodup) : dropDupKeepLast l = l := by
  induction l with
  | nil => rfl
  | cons x xs ih =>
    simp only [List.map_cons, List.nodup_cons] at h
    have hany : ¬(xs.any fun y => decide (y.date = x.date)) = true := by
      rw [List.any_eq_true]
      rintro ⟨y, hy, hdy⟩
      exact h.1 (List.mem_map.mpr ⟨y, hy, of_decide_eq_true hdy⟩)
    rw [dropDupKeepLast, if_neg hany, ih h.2]

/-- C7: on a successful run, every output row is built from a timestamp
present in both series (carrying that timestamp's price and volume and its
UTC calendar date), and — when volume timestamps are duplicate-free and the
matching timestamps fall on pairwise distinct dates — the output dates are
exactly the dates of the matching timestamps, each appearing once. -/
theorem C7_inner_join_semantics (raw : RawData) (out : List MarketRow)
    (h : process_market_data raw = .ok out)
    (hvk : ((raw.total_volumes.getD []).map Prod.fst).Nodup)
    (hdates : ((matchingPrices (raw.prices.getD [])
      (raw.total_volumes.getD [])).map fun p => dateFromMs p.1).Nodup) :
    (∀ r ∈ out, ∃ t pr vo, (t, pr) ∈ raw.prices.getD [] ∧
      (t, vo) ∈ raw.total_volumes.getD [] ∧
      r.date = dateFromMs t ∧ r.price = pr ∧ r.volume = vo) ∧
    ((out.map fun r => r.date) =
      (matchingPrices (raw.prices.getD []) (raw.total_volumes.getD [])).map
        fun p => dateFromMs p.1) ∧
    (out.map fun r => r.date).Nodup := by
  have hout := process_market_data_ok h
  have hmd := mergedRows_dates (raw.prices.getD []) (raw.total_volumes.getD []) hvk
  have hnd : ((mergedRows (raw.prices.getD [])
      (raw.total_volumes.getD [])).map fun r => r.date).Nodup := by
    rw [hmd]
    exact hdates
  have hid := dropDupKeepLast_eq_self hnd
  refine ⟨?_, ?_, ?_⟩
  · intro r hr
    rw [hout] at hr
    have hrm := mem_of_mem_dropDupKeepLast hr
    simp only [mergedRows, List.mem_map] at hrm
    obtain ⟨m, hm, hmk⟩ := hrm
    simp only [mergeOnTimestamp, List.mem_flatMap, List.mem_map] at hm
    obtain ⟨p2, hp2, v2, hv2, hpv⟩ := hm
    rw [List.mem_filter] at hv2
    refine ⟨p2.1, p2.2, v2.2, hp2, ?_, ?_, ?_, ?_⟩
    · have hv1 : v2.1 = p2.1 := of_decide_eq_true hv2.2
      rw [← hv1]
      exact hv2.1
    · rw [← hmk, ← hpv]
    · rw [← hmk, ← hpv]
    · rw [← hmk, ← hpv]
  · rw [hout, hid, hmd]
  · rw [hout, hid]
    exact hnd

/-- Witness for C7 at a payload with two matching timestamps on distinct
dates and one price-only timestamp that the join drops. -/
theorem C7_witness :
    ((([⟨(1970, 1, 1), 5, 50⟩, ⟨(1970, 1, 2), 7, 70⟩] : List MarketRow)).map
      fun r => r.date) =
      (matchingPrices [(0, 5), (86400000, 7), (999, 9)]
        [(86400000, 70), (0, 50)]).map fun p => dateFromMs p.1 :=
  (C7_inner_join_semantics
    ⟨some [(0, 5), (86400000, 7), (999, 9)], some [(86400000, 70), (0, 50)]⟩
    [⟨(1970, 1, 1), 5, 50⟩, ⟨(1970, 1, 2), 7, 70⟩]
    (by rfl) (by decide) (by decide)).2.1

/-- Witness for C9 at a single-block window whose block carries two
transactions and no base-fee field. -/
theorem C9_witness :
    ∃ n b,
      (fun k : Int => if k = 7 then some (⟨7, 60, [1, 2], none⟩ : Block) else none) n = some b ∧
      (mkBlockRecord ⟨7, 60, [1, 2], none⟩).block_number = b.number ∧
      (mkBlockRecord ⟨7, 60, [1, 2], none⟩).transaction_count = b.transactions.length ∧
      (mkBlockRecord ⟨7, 60, [1, 2], none⟩).timestamp = utcDateTimeString b.timestamp ∧
      (∀ w, b.baseFeePerGas = some w →
        (mkBlockRecord ⟨7, 60, [1, 2], none⟩).base_fee_per_gas_gwei = (w : ℚ) / 1000000000) ∧
      (b.baseFeePerGas = none →
        (mkBlockRecord ⟨7, 60, [1, 2], none⟩).base_fee_per_gas_gwei = 0) :=
  C9_block_record_fields
    (fun k : Int => if k = 7 then some (⟨7, 60, [1, 2], none⟩ : Block) else none)
    7 1 (mkBlockRecord ⟨7, 60, [1, 2], none⟩) (by decide)

/-- C3: for `max_retries ≥ 1` the retry policy of `fetch_market_data` is:
an all-429 endpoint is attempted exactly `max_retries` times with a fixed
5-second sleep between consecutive attempts, raising the `HTTPError` only
after the last attempt; an endpoint always raising a non-HTTP request
error behaves the same and re-raises it after the last attempt; a non-429
HTTP error at attempt `k` (after `k - 1` retryable failures) raises at
once, with exactly `k` requests issued; and a success at attempt `k`
returns the payload after exactly `k` requests. -/
theorem C3_retry_policy (resp : Int → HttpResp) (m : Int) (hm : 1 ≤ m) :
    ((∀ i, resp i = .httpError 429) →
      (fetch_market_data resp m).1 = .raisedHttp 429 ∧
      countGets (fetch_market_data resp m).2 = m.toNat ∧
      countSleeps (fetch_market_data resp m).2 = m.toNat - 1 ∧
      ∀ s, FetchEvent.sleep s ∈ (fetch_market_data resp m).2 → s = 5) ∧
    ((∀ i, resp i = .requestError) →
      (fetch_market_data resp m).1 = .raisedRequest ∧
      countGets (fetch_market_data resp m).2 = m.toNat ∧
      countSleeps (fetch_market_data resp m).2 = m.toNat - 1 ∧
      ∀ s, FetchEvent.sleep s ∈ (fetch_market_data resp m).2 → s = 5) ∧
    (∀ k s, 1 ≤ k → k ≤ m → resp k = .httpError s → s ≠ 429 →
      (∀ i, 1 ≤ i → i < k → retryable (resp i)) →
      (fetch_market_data resp m).1 = .raisedHttp s ∧
      countGets (fetch_market_data resp m).2 = k.toNat ∧
      countSleeps (fetch_market_data resp m).2 = k.toNat - 1) ∧
    (∀ k d, 1 ≤ k → k ≤ m → resp k = .success d →
      (∀ i, 1 ≤ i → i < k → retryable (resp i)) →
      (fetch_market_data resp m).1 = .payload d ∧
      countGets (fetch_market_data resp m).2 = k.toNat ∧
      countSleeps (fetch_market_data resp m).2 = k.toNat - 1) := by
  have e : fetch_market_data resp m =
      fetchLoop resp m (rangeFrom 1 m.toNat) := rfl
  have hrange : (1 : Int) + (m.toNat : Int) = m + 1 := by omega
  have h1n : 1 ≤ m.toNat := by omega
  refine ⟨?_, ?_, ?_, ?_⟩
  · intro hresp
    rw [e]
    have hall := fetchLoop_all_retryable_fail resp m
      (fun i => Or.inl (hresp i)) m.toNat 1 h1n hrange
    exact ⟨hall.1.1 (hresp m), hall.2.1, hall.2.2.1, hall.2.2.2⟩
  · intro hresp
    rw [e]
    have hall := fetchLoop_all_retryable_fail resp m
      (fun i => Or.inr (hresp i)) m.toNat 1 h1n hrange
    exact ⟨hall.1.2 (hresp m), hall.2.1, hall.2.2.1, hall.2.2.2⟩
  · intro k s hk1 hkm hks hne hpre
    rw [e]
    have h := (fetchLoop_stops_at_k resp m m.toNat 1 k hk1 (by omega) hrange
      (fun i hi1 hi2 => hpre i hi1 hi2)).2 s hks hne
    refine ⟨h.1, ?_, ?_⟩
    · rw [h.2.1]
      omega
    · rw [h.2.2]
      omega
  · intro k d hk1 hkm hkd hpre
    rw [e]
    have h := (fetchLoop_stops_at_k resp m m.toNat 1 k hk1 (by omega) hrange
      (fun i hi1 hi2 => hpre i hi1 hi2)).1 d hkd
    refine ⟨h.1, ?_, ?_⟩
    · rw [h.2.1]
      omega
    · rw [h.2.2]
      omega

/-- Witness for C3 at `max_retries = 3` against an all-429 endpoint:
three requests, two 5-second sleeps, final re-raise. -/
theorem C3_witness :
    (fetch_market_data (fun _ => .httpError 429) 3).1 = .raisedHttp 429 ∧
    countGets (fetch_market_data (fun _ => .httpError 429) 3).2 = 3 ∧
    countSleeps (fetch_market_data (fun _ => .httpError 429) 3).2 = 2 := by
  have h := (C3_retry_policy (fun _ => .httpError 429) 3 (by decide)).1
    (fun i => rfl)
  exact ⟨h.1, h.2.1, h.2.2.1⟩

end DeFi
